import Mathlib

/-!
Verification of the hybrid-retrieval core of the RAG chatbot backend.

We give a shallow embedding of the Python source:
* `PDFProcessor.create_chunks` (pdf_processor.py) — sliding-window chunking;
* `EmbeddingService.get_embeddings` (embeddings.py) — batched embedding;
* `HybridRetriever._dense_search` / `_sparse_search` / `_combine_results`
  (retrieval.py) — FAISS dense search, BM25 sparse search and additive fusion;
* the admin upload endpoint and `clear_global_state` (routers/admin.py).

Machine floats are modelled by exact rationals; the external FAISS
`IndexFlatL2.search` is modelled by its documented behaviour (exactly `k`
results, squared-L2 ascending, padded with label `-1` and `FLT_MAX` when the
index holds fewer than `k` vectors); the BM25 idf table (computed with real
logarithms by `rank_bm25`) is an explicit parameter, so every theorem below
holds for every idf assignment.
-/

namespace RagCore

/-- Python `str.endswith(suffix)`, on the character data. -/
def pyEndsWith (s suffix : String) : Bool :=
  suffix.data.isSuffixOf s.data

/-- `settings.MAX_FILE_SIZE_MB` (core/config.py, default 2). -/
def MAX_FILE_SIZE_MB : ℕ := 2

/-- `settings.CHUNK_SIZE` (core/config.py, default 500). -/
def CHUNK_SIZE : ℕ := 500

/-- `settings.CHUNK_OVERLAP` (core/config.py, default 100). -/
def CHUNK_OVERLAP : ℕ := 100

/-- `settings.ALLOWED_EXTENSIONS` (core/config.py, default `[".pdf"]`). -/
def ALLOWED_EXTENSIONS : List String := [".pdf"]

namespace PDFProcessor

/-- The `while start < text_len` loop of `PDFProcessor.create_chunks`:
emits `text[start:end]` with `end = min (start + chunk_size) text_len`,
advances to `end - overlap`, and stops when the window no longer advances. -/
def chunksLoop (text : List Char) (chunk_size overlap : ℕ) (start : ℕ) :
    List (List Char) :=
  if _h : start < text.length then
    if min (start + chunk_size) text.length - overlap ≤ start then
      [(text.take (min (start + chunk_size) text.length)).drop start]
    else
      (text.take (min (start + chunk_size) text.length)).drop start ::
        chunksLoop text chunk_size overlap
          (min (start + chunk_size) text.length - overlap)
  else []
termination_by text.length - start
decreasing_by
  simp only [not_le] at *
  omega

/-- `PDFProcessor.create_chunks` (pdf_processor.py, lines 54-76).
Returns `.error` where the Python raises `ValueError`. -/
def create_chunks (text : String) (chunk_size overlap : ℕ) :
    Except String (List String) :=
  if text = "" then .ok []
  else if overlap ≥ chunk_size then
    .error "overlap must be smaller than chunk_size"
  else .ok ((chunksLoop text.data chunk_size overlap 0).map (fun l => ⟨l⟩))

/-- Reconstruction operation of the round-trip property: keep the first chunk,
drop the first `ov` characters of every later chunk, concatenate. -/
def listRecombine (ov : ℕ) : List (List Char) → List Char
  | [] => []
  | c :: rest => c ++ (rest.map (List.drop ov)).flatten

/-- `s[n:]` on strings. -/
def strDrop (s : String) (n : ℕ) : String := ⟨s.data.drop n⟩

/-- String-level reconstruction: first chunk, then each later chunk with its
first `ov` characters removed, concatenated. -/
def recombine (ov : ℕ) : List String → String
  | [] => ""
  | c :: rest => c ++ String.join (rest.map (fun r => strDrop r ov))

end PDFProcessor

namespace EmbeddingService

/-- `EmbeddingService.get_embeddings` (embeddings.py, lines 62-78): walks the
input in batches of 100 (`for i in range(0, len(texts), batch_size)`), calls
the provider once per batch and concatenates the per-batch outputs in order.
`api` models one `client.embeddings.create` call on a batch. -/
def get_embeddings (api : List String → List (List ℚ))
    (texts : List String) : List (List ℚ) :=
  if texts = [] then []
  else api (texts.take 100) ++ get_embeddings api (texts.drop 100)
termination_by texts.length
decreasing_by
  simp only [List.length_drop]
  have : texts.length ≠ 0 := by
    simpa [List.length_eq_zero] using (by assumption : ¬ texts = [])
  omega

/-- Fallible variant used by the upload model: each batch call may fail
(`ProviderUnavailable`); the whole call then fails with no partial result. -/
def get_embeddingsE (api : List String → Except String (List (List ℚ)))
    (texts : List String) : Except String (List (List ℚ)) :=
  if texts = [] then .ok []
  else do
    let v ← api (texts.take 100)
    let rest ← get_embeddingsE api (texts.drop 100)
    .ok (v ++ rest)
termination_by texts.length
decreasing_by
  simp only [List.length_drop]
  have : texts.length ≠ 0 := by
    simpa [List.length_eq_zero] using (by assumption : ¬ texts = [])
  omega

end EmbeddingService

namespace HybridRetriever

/-- Squared L2 distance between two equal-dimension vectors
(`faiss.IndexFlatL2` reports squared distances). -/
def sqDist (q v : List ℚ) : ℚ :=
  ((q.zip v).map (fun p => (p.1 - p.2) ^ 2)).sum

/-- `FLT_MAX = 2^128 - 2^104`, the distance FAISS reports on padding
entries when the index holds fewer than `k` vectors. -/
def fltMax : ℚ := 2 ^ 128 - 2 ^ 104

/-- Model of `faiss.IndexFlatL2.search` on one query vector: exactly `k`
(label, squared-distance) pairs — the stored vectors ranked by ascending
distance first, then, if the index holds `M < k` vectors, `k - M` padding
entries with label `-1` and distance `FLT_MAX`. -/
def faissSearch (db : List (List ℚ)) (q : List ℚ) (k : ℕ) : List (ℤ × ℚ) :=
  (List.insertionSort (fun a b : ℤ × ℚ => a.2 ≤ b.2)
      (db.enum.map (fun p => ((p.1 : ℤ), sqDist q p.2)))).take k
    ++ List.replicate (k - db.length) ((-1 : ℤ), fltMax)

/-- One Python dict insertion `d[k] = v`: overwriting keeps the original
position of the key, a fresh key is appended. -/
def dictInsert (d : List (ℤ × ℚ)) (kv : ℤ × ℚ) : List (ℤ × ℚ) :=
  if kv.1 ∈ d.map Prod.fst then
    d.map (fun p => if p.1 = kv.1 then kv else p)
  else d ++ [kv]

/-- A Python dict comprehension over a list of (key, value) pairs. -/
def dictOfList (l : List (ℤ × ℚ)) : List (ℤ × ℚ) :=
  l.foldl dictInsert []

/-- Python `d.get(i, 0.0)` on the association-list model of a dict. -/
def dictGet (d : List (ℤ × ℚ)) (i : ℤ) : ℚ :=
  match d.find? (fun p => decide (p.1 = i)) with
  | some p => p.2
  | none => 0

/-- `HybridRetriever._dense_search` (retrieval.py, lines 37-48): FAISS search,
then the dict `{label : 1 / (1 + distance)}` in result order. -/
def dense_search (chunkEmbs : List (List ℚ)) (qEmb : List ℚ)
    (top_k : ℕ) : List (ℤ × ℚ) :=
  dictOfList ((faissSearch chunkEmbs qEmb top_k).map
    (fun p => (p.1, 1 / (1 + p.2))))

/-- Python `text.lower().split()`: lowercase, split on whitespace runs. -/
def pyTokenize (s : String) : List String :=
  (s.toLower.split (fun c => c.isWhitespace)).filter (fun t => !t.isEmpty)

/-- `rank_bm25.BM25Okapi` default `k1 = 1.5`. -/
def bm25_k1 : ℚ := 3 / 2

/-- `rank_bm25.BM25Okapi` default `b = 0.75`. -/
def bm25_b : ℚ := 3 / 4

/-- One document's score in `BM25Okapi.get_scores`: the sum over query terms
of `idf(t) * tf * (k1 + 1) / (tf + k1 * (1 - b + b * |doc| / avgdl))`.
The idf table (computed with real-number logarithms by `rank_bm25`) is the
parameter `idf`; every theorem below holds for all idf assignments. -/
def bm25ScoreDoc (idf : String → ℚ) (avgdl : ℚ)
    (query doc : List String) : ℚ :=
  query.foldl
    (fun acc t =>
      acc + idf t * ((doc.count t : ℚ) * (bm25_k1 + 1) /
        ((doc.count t : ℚ) +
          bm25_k1 * (1 - bm25_b + bm25_b * (doc.length : ℚ) / avgdl))))
    0

/-- `BM25Okapi.get_scores`: one score per corpus document, with
`avgdl` the average document length. -/
def bm25GetScores (idf : String → ℚ) (corpus : List (List String))
    (query : List String) : List ℚ :=
  corpus.map (bm25ScoreDoc idf
    ((corpus.map (fun d => (d.length : ℚ))).sum / (corpus.length : ℚ)) query)

/-- `np.argsort(scores)`: indices ranked by ascending score
(modelled stably, ties by ascending index). -/
def argsortAsc (scores : List ℚ) : List ℕ :=
  (List.insertionSort (fun a b : ℕ × ℚ => a.2 ≤ b.2) scores.enum).map Prod.fst

/-- Python slice `l[-k:]` (note `-0 = 0`, so `k = 0` keeps the whole list). -/
def pySliceLast (l : List ℕ) (k : ℕ) : List ℕ :=
  if k = 0 then l else l.drop (l.length - k)

/-- The dict comprehension of `_sparse_search`:
`{int(i): scores[i] for i in argsort(scores)[-top_k:][::-1] if scores[i] > 0}`. -/
def sparseFromScores (scores : List ℚ) (top_k : ℕ) : List (ℤ × ℚ) :=
  dictOfList (((pySliceLast (argsortAsc scores) top_k).reverse).filterMap
    (fun i =>
      if h : i < scores.length then
        (if 0 < scores.get ⟨i, h⟩ then some ((i : ℤ), scores.get ⟨i, h⟩)
         else none)
      else none))

/-- `HybridRetriever._sparse_search` (retrieval.py, lines 50-60): tokenize the
query, score every chunk with BM25, keep the `top_k` best, drop non-positive
scores. -/
def sparse_search (idf : String → ℚ) (corpus : List (List String))
    (query : String) (top_k : ℕ) : List (ℤ × ℚ) :=
  sparseFromScores (bm25GetScores idf corpus (pyTokenize query)) top_k

/-- Python list subscript `chunks[i]`: a negative index counts from the end,
an index out of `[-len, len)` raises `IndexError`. -/
def pyGetItem (chunks : List String) (i : ℤ) : Except String String :=
  if h : 0 ≤ i ∧ i < (chunks.length : ℤ) then
    .ok (chunks.get ⟨i.toNat, by omega⟩)
  else if h2 : -(chunks.length : ℤ) ≤ i ∧ i < 0 then
    .ok (chunks.get ⟨(i + chunks.length).toNat, by omega⟩)
  else .error "IndexError: list index out of range"

/-- One entry of the fused list:
`(self.chunks[i], dense.get(i, 0.0) + sparse.get(i, 0.0))`. -/
def getEntry (chunks : List String) (d s : List (ℤ × ℚ)) (i : ℤ) :
    Except String (String × ℚ) :=
  (pyGetItem chunks i).map (fun t => (t, dictGet d i + dictGet s i))

/-- Total value of `getEntry` on an index in `[-len, len)` (the model's view
of the entry; `getEntry` returns exactly this on such indices). -/
def entryVal (chunks : List String) (d s : List (ℤ × ℚ)) (i : ℤ) :
    String × ℚ :=
  (if 0 ≤ i then chunks.getD i.toNat ""
   else chunks.getD (i + chunks.length).toNat "",
    dictGet d i + dictGet s i)

/-- The list comprehension of `_combine_results` over the iteration order of
`set(dense.keys()) | set(sparse.keys())`; any `IndexError` propagates. -/
def combineEntries (chunks : List String) (d s : List (ℤ × ℚ)) :
    List ℤ → Except String (List (String × ℚ))
  | [] => .ok []
  | i :: rest => do
      let e ← getEntry chunks d s i
      let tl ← combineEntries chunks d s rest
      .ok (e :: tl)

/-- `HybridRetriever._combine_results` (retrieval.py, lines 62-72): build the
fused entries in the iteration order `order` of the Python set
`set(dense.keys()) | set(sparse.keys())` (implementation-defined hash order),
stable-sort them by fused score descending, truncate to `top_k`. -/
def combine_results (chunks : List String) (dense sparse : List (ℤ × ℚ))
    (top_k : ℕ) (order : List ℤ) : Except String (List (String × ℚ)) :=
  (combineEntries chunks dense sparse order).map
    (fun comb =>
      (List.insertionSort (fun a b : String × ℚ => b.2 ≤ a.2) comb).take top_k)

/-- First-occurrence enumeration of `set(dense.keys()) | set(sparse.keys())`,
the canonical order used to instantiate the full pipeline. -/
def setUnion (d s : List (ℤ × ℚ)) : List ℤ :=
  (d.map Prod.fst ++ s.map Prod.fst).dedup

/-- The dense half of `HybridRetriever.search`: embeddings of all chunks are
built by the batched `get_embeddings`, the query embedding by
`get_embeddings([query])[0]`. -/
def retrieverDense (embed : String → List ℚ) (chunks : List String)
    (query : String) (top_k : ℕ) : List (ℤ × ℚ) :=
  dense_search (EmbeddingService.get_embeddings (fun b => b.map embed) chunks)
    (embed query) top_k

/-- The sparse half of `HybridRetriever.search`: chunks tokenized as in
`_build_indices` (`chunk.lower().split()`). -/
def retrieverSparse (idf : String → ℚ) (chunks : List String)
    (query : String) (top_k : ℕ) : List (ℤ × ℚ) :=
  sparse_search idf (chunks.map pyTokenize) query top_k

/-- `HybridRetriever.search` (retrieval.py, lines 31-35): dense search, sparse
search, then fusion over the ordinal set union. -/
def search (embed : String → List ℚ) (idf : String → ℚ)
    (chunks : List String) (query : String) (top_k : ℕ) :
    Except String (List (String × ℚ)) :=
  combine_results chunks
    (retrieverDense embed chunks query top_k)
    (retrieverSparse idf chunks query top_k)
    top_k
    (setUnion (retrieverDense embed chunks query top_k)
      (retrieverSparse idf chunks query top_k))

end HybridRetriever

namespace Admin

/-- Python `str.strip()`. -/
def pyStrip (s : String) : String :=
  ⟨(s.data.dropWhile Char.isWhitespace).reverse.dropWhile
      Char.isWhitespace |>.reverse⟩

/-- The in-memory `HybridRetriever` aggregate: chunks plus both indices'
backing data (`__init__` + `_build_indices`, retrieval.py lines 12-29). -/
structure Retriever where
  chunks : List String
  chunkEmbs : List (List ℚ)
  tokenized : List (List String)
deriving DecidableEq

/-- Building a `HybridRetriever`: the batched embedding call may fail
(`ProviderUnavailable`), in which case no retriever is produced. -/
def buildRetriever (api : List String → Except String (List (List ℚ)))
    (chunks : List String) : Except String Retriever :=
  (EmbeddingService.get_embeddingsE api chunks).map
    (fun e => ⟨chunks, e, chunks.map HybridRetriever.pyTokenize⟩)

/-- `global_state` (rag_services/state.py): the process-wide retriever slot. -/
structure RagState where
  retriever : Option Retriever
  chunks : Option (List String)
  history : List (String × String)
  pdf_path : Option String
  pdf_filename : Option String
  pdf_size : Option ℕ
deriving DecidableEq

/-- The retriever slot plus the `uploaded_pdfs` directory contents. -/
structure World where
  state : RagState
  files : List String
deriving DecidableEq

/-- An `HTTPException`: status code and detail. -/
structure HErr where
  status : ℕ
  detail : String
deriving DecidableEq

/-- `UploadResponse` (models/rag_model.py). -/
structure UploadResponse where
  message : String
  chunks_count : ℕ
  is_update : Bool
  previous_chunks : Option ℕ
  filename : String
  file_size : ℕ
deriving DecidableEq

/-- `clear_global_state` (routers/admin.py, lines 35-53): resets the dense
index, deletes the recorded backing PDF when its path is truthy and the file
exists, then blanks every state field. -/
def clear_global_state (w : World) : World :=
  ⟨⟨none, none, [], none, none, none⟩,
    match w.state.pdf_path with
    | some p => if p ≠ "" ∧ p ∈ w.files then w.files.erase p else w.files
    | none => w.files⟩

/-- The `try:` block of `upload_pdf` (admin.py, lines 171-240); its `except`
clause converts any raised message into a 500 response. -/
def pdfTryBlock (extract : List ℕ → Except String String)
    (api : List String → Except String (List (List ℚ)))
    (tempStamp : String) (w : World) (filename : String) (bytes : List ℕ) :
    Except HErr UploadResponse × World :=
  let existing_pdfs := w.files.filter (fun f => pyEndsWith f ".pdf")
  let temp_path := if filename ∈ w.files then tempStamp else filename
  let files1 := w.files ++ [temp_path]
  match extract bytes with
  | .error e => (.error ⟨500, e⟩, ⟨w.state, files1⟩)
  | .ok text =>
    if (pyStrip text).length < 100 then
      (.error ⟨500, "Insufficient text content"⟩,
        ⟨w.state, files1.erase temp_path⟩)
    else
      match PDFProcessor.create_chunks text CHUNK_SIZE CHUNK_OVERLAP with
      | .error e => (.error ⟨500, e⟩, ⟨w.state, files1⟩)
      | .ok chunks =>
        let previous_chunks := (w.state.chunks.getD []).length
        let w1 : World :=
          if w.state.retriever.isSome then
            clear_global_state ⟨w.state, files1⟩
          else ⟨w.state, files1⟩
        match buildRetriever api chunks with
        | .error e => (.error ⟨500, e⟩, w1)
        | .ok retr =>
          let files2 := w1.files.filter
            (fun f => decide (f = temp_path ∨ f ∉ existing_pdfs))
          let files3 :=
            if temp_path ≠ filename then
              ((files2.erase filename).erase temp_path) ++ [filename]
            else files2
          (.ok ⟨"PDF processed successfully", chunks.length,
              decide (0 < previous_chunks),
              if previous_chunks = 0 then none else some previous_chunks,
              filename, bytes.length⟩,
            ⟨⟨some retr, some chunks, [], some filename, some filename,
              some bytes.length⟩, files3⟩)

/-- `upload_pdf` (routers/admin.py, lines 160-240). `extract` models
`PDFProcessor.extract_text` (external pypdf), `api` one
`client.embeddings.create` call, `tempStamp` the timestamp-based temp file
name used when the uploaded filename already exists on disk. Any exception
inside the `try` block is caught and re-raised as a 500 with the original
message — including the 400 `HTTPException`s raised inside it. -/
def upload_pdf (extract : List ℕ → Except String String)
    (api : List String → Except String (List (List ℚ)))
    (tempStamp : String) (w : World) (filename : String) (bytes : List ℕ) :
    Except HErr UploadResponse × World :=
  if pyEndsWith filename ".pdf" then
    if bytes.length > MAX_FILE_SIZE_MB * 1024 * 1024 then
      (.error ⟨400, "File size limit exceeded"⟩, w)
    else
      pdfTryBlock extract api tempStamp w filename bytes
  else (.error ⟨400, "Invalid file type"⟩, w)

end Admin

end RagCore

namespace RagCore

open PDFProcessor

/-- C3 counterexample: the empty-text early return precedes the overlap
check, so `create_chunks "" 100 100` returns `[]` instead of raising. -/
theorem create_chunks_empty_text_no_error :
    create_chunks "" 100 100 = Except.ok [] := by
  rfl

/-- C3 (amended): for every NON-empty text, `overlap ≥ chunk_size` raises the
`ValueError` before any chunk is produced. -/
theorem create_chunks_overlap_ge_error (text : String) (cs ov : ℕ)
    (htext : text ≠ "") (hov : cs ≤ ov) :
    create_chunks text cs ov =
      Except.error "overlap must be smaller than chunk_size" := by
  unfold create_chunks
  rw [if_neg htext, if_pos hov]

/-- Witness for `create_chunks_overlap_ge_error` at `("abc", 100, 100)`. -/
theorem create_chunks_overlap_ge_error_witness :
    create_chunks "abc" 100 100 =
      Except.error "overlap must be smaller than chunk_size" :=
  create_chunks_overlap_ge_error "abc" 100 100 (by decide) (by decide)

theorem chunksLoop_map_drop_flatten (text : List Char) (cs ov : ℕ)
    (hov : ov < cs) :
    ∀ fuel start, text.length - start ≤ fuel →
      ((chunksLoop text cs ov start).map (List.drop ov)).flatten =
        text.drop (start + ov) := by
  intro fuel
  induction fuel with
  | zero =>
    intro start hle
    rw [chunksLoop, dif_neg (by omega)]
    simp [List.drop_eq_nil_of_le (by omega : text.length ≤ start + ov)]
  | succ n ih =>
    intro start hle
    by_cases hstart : start < text.length
    · rw [chunksLoop, dif_pos hstart]
      split_ifs with hbreak
      · have he : min (start + cs) text.length = text.length := by omega
        rw [he]
        simp only [List.map_cons, List.map_nil, List.flatten_cons,
          List.flatten_nil, List.append_nil, List.take_length,
          List.drop_drop]
      · rw [List.map_cons, List.flatten_cons,
          ih (min (start + cs) text.length - ov) (by omega)]
        have h1 : min (start + cs) text.length - ov + ov =
            min (start + cs) text.length := by omega
        rw [h1, List.drop_drop]
        have h3 : start + ov ≤ (text.take (min (start + cs) text.length)).length := by
          simp only [List.length_take]
          omega
        calc (text.take (min (start + cs) text.length)).drop (start + ov) ++
              text.drop (min (start + cs) text.length)
            = (text.take (min (start + cs) text.length) ++
                text.drop (min (start + cs) text.length)).drop (start + ov) := by
              rw [List.drop_append_of_le_length h3]
          _ = text.drop (start + ov) := by rw [List.take_append_drop]
    · rw [chunksLoop, dif_neg hstart]
      simp [List.drop_eq_nil_of_le (by omega : text.length ≤ start + ov)]

theorem chunksLoop_recombine (text : List Char) (cs ov : ℕ) (hov : ov < cs)
    (start : ℕ) (hstart : start < text.length) :
    listRecombine ov (chunksLoop text cs ov start) = text.drop start := by
  rw [chunksLoop, dif_pos hstart]
  split_ifs with hbreak
  · have he : min (start + cs) text.length = text.length := by omega
    rw [he]
    simp [listRecombine, List.take_length]
  · rw [listRecombine,
      chunksLoop_map_drop_flatten text cs ov hov text.length _ (by omega)]
    have h1 : min (start + cs) text.length - ov + ov =
        min (start + cs) text.length := by omega
    rw [h1]
    have h3 : start ≤ (text.take (min (start + cs) text.length)).length := by
      simp only [List.length_take]
      omega
    calc (text.take (min (start + cs) text.length)).drop start ++
          text.drop (min (start + cs) text.length)
        = (text.take (min (start + cs) text.length) ++
            text.drop (min (start + cs) text.length)).drop start := by
          rw [List.drop_append_of_le_length h3]
      _ = text.drop start := by rw [List.take_append_drop]

theorem strJoin_mk_aux (ls : List (List Char)) :
    ∀ acc : List Char,
      List.foldl (fun r s => r ++ s) (⟨acc⟩ : String)
          (ls.map (fun l => (⟨l⟩ : String))) =
        ⟨acc ++ ls.flatten⟩ := by
  induction ls with
  | nil => intro acc; simp
  | cons c rest ih =>
    intro acc
    simp only [List.map_cons, List.foldl_cons]
    have h : ((⟨acc⟩ : String) ++ (⟨c⟩ : String)) = (⟨acc ++ c⟩ : String) := rfl
    rw [h, ih]
    simp [List.flatten_cons]

theorem strJoin_mk (ls : List (List Char)) :
    String.join (ls.map (fun l => (⟨l⟩ : String))) = ⟨ls.flatten⟩ := by
  have h := strJoin_mk_aux ls []
  simpa only [String.join, List.nil_append] using h

theorem recombine_map_mk (ov : ℕ) (L : List (List Char)) :
    recombine ov (L.map (fun l => (⟨l⟩ : String))) = ⟨listRecombine ov L⟩ := by
  cases L with
  | nil => rfl
  | cons c rest =>
    simp only [List.map_cons, recombine, listRecombine]
    have h : (rest.map (fun l => (⟨l⟩ : String))).map (fun r => strDrop r ov) =
        (rest.map (List.drop ov)).map (fun l => (⟨l⟩ : String)) := by
      rw [List.map_map, List.map_map]
      rfl
    rw [h, strJoin_mk]
    rfl

/-- C6 (confirmed): for non-empty text and `overlap < chunk_size`, keeping the
first chunk and the later chunks with their first `overlap` characters removed
and concatenating reconstructs the text exactly. -/
theorem create_chunks_roundtrip (text : String) (cs ov : ℕ)
    (htext : text ≠ "") (hov : ov < cs) :
    ∃ chunks, create_chunks text cs ov = Except.ok chunks ∧
      recombine ov chunks = text := by
  refine ⟨(chunksLoop text.data cs ov 0).map (fun l => ⟨l⟩), ?_, ?_⟩
  · unfold create_chunks
    rw [if_neg htext, if_neg (by omega)]
  · have hlen : 0 < text.data.length := by
      cases text with
      | mk d =>
        cases d with
        | nil => exact absurd rfl htext
        | cons a l => simp
    rw [recombine_map_mk, chunksLoop_recombine text.data cs ov hov 0 hlen]
    simp only [List.drop_zero]

/-- Witness for `create_chunks_roundtrip` at `("abcdefgh", 5, 2)`. -/
theorem create_chunks_roundtrip_witness :
    ∃ chunks, create_chunks "abcdefgh" 5 2 = Except.ok chunks ∧
      recombine 2 chunks = "abcdefgh" :=
  create_chunks_roundtrip "abcdefgh" 5 2 (by decide) (by decide)

open EmbeddingService in
theorem getEmbeddings_pointwise (g : String → List ℚ)
    (texts : List String) :
    get_embeddings (fun batch => batch.map g) texts = texts.map g := by
  have main : ∀ n (ts : List String), ts.length ≤ n →
      get_embeddings (fun batch => batch.map g) ts = ts.map g := by
    intro n
    induction n with
    | zero =>
      intro ts h
      have : ts = [] := List.eq_nil_of_length_eq_zero (by omega)
      subst this
      rw [get_embeddings]
      simp
    | succ n ih =>
      intro ts h
      rw [get_embeddings]
      split_ifs with he
      · simp [he]
      · have hlen : ts.length ≠ 0 := by
          simpa [List.length_eq_zero] using he
        rw [ih (ts.drop 100) (by simp only [List.length_drop]; omega)]
        rw [← List.map_append, List.take_append_drop]
  exact main texts.length texts le_rfl

open EmbeddingService in
/-- C8 (confirmed): when each provider call embeds every text of its batch in
order (the provider contract), the batched `get_embeddings` coincides with
mapping the provider over the inputs one by one — so it returns one vector
per input text and the i-th output embeds the i-th input, for any batching
split into groups of at most 100. -/
theorem get_embeddings_batched_eq_map (g : String → List ℚ)
    (texts : List String) :
    get_embeddings (fun batch => batch.map g) texts = texts.map g ∧
    (get_embeddings (fun batch => batch.map g) texts).length = texts.length :=
  ⟨getEmbeddings_pointwise g texts, by rw [getEmbeddings_pointwise g texts]; simp⟩

namespace HybridRetriever

theorem foldl_dictInsert_of_nodup :
    ∀ (l acc : List (ℤ × ℚ)), ((acc ++ l).map Prod.fst).Nodup →
      List.foldl dictInsert acc l = acc ++ l := by
  intro l
  induction l with
  | nil => intro acc _; simp
  | cons kv t ih =>
    intro acc hnodup
    have hkv : kv.1 ∉ acc.map Prod.fst := by
      rw [List.map_append] at hnodup
      rcases List.nodup_append.1 hnodup with ⟨_, _, hdisj⟩
      intro hmem
      exact hdisj hmem (by simp)
    rw [List.foldl_cons, dictInsert, if_neg hkv]
    have happ : (acc ++ [kv]) ++ t = acc ++ kv :: t := by simp
    rw [ih (acc ++ [kv]) (by rw [happ]; exact hnodup), happ]

theorem dictOfList_eq_self (l : List (ℤ × ℚ))
    (h : (l.map Prod.fst).Nodup) : dictOfList l = l := by
  have hmain := foldl_dictInsert_of_nodup l [] (by simpa using h)
  simpa [dictOfList] using hmain

theorem mem_of_mem_dictInsert (p kv : ℤ × ℚ) (acc : List (ℤ × ℚ))
    (h : p ∈ dictInsert acc kv) : p ∈ acc ∨ p = kv := by
  rw [dictInsert] at h
  split_ifs at h with hmem
  · rcases List.mem_map.1 h with ⟨q, hq, hqe⟩
    by_cases hq1 : q.1 = kv.1
    · right; rw [if_pos hq1] at hqe; exact hqe.symm
    · left; rw [if_neg hq1] at hqe; exact hqe ▸ hq
  · rcases List.mem_append.1 h with h | h
    · exact Or.inl h
    · exact Or.inr (List.mem_singleton.1 h)

theorem mem_of_mem_dictOfList (l : List (ℤ × ℚ)) (p : ℤ × ℚ)
    (h : p ∈ dictOfList l) : p ∈ l := by
  have main : ∀ (l acc : List (ℤ × ℚ)), p ∈ List.foldl dictInsert acc l →
      p ∈ acc ∨ p ∈ l := by
    intro l
    induction l with
    | nil =>
      intro acc h
      rw [List.foldl_nil] at h
      exact Or.inl h
    | cons kv t ih =>
      intro acc h
      rw [List.foldl_cons] at h
      rcases ih (dictInsert acc kv) h with h | h
      · rcases mem_of_mem_dictInsert p kv acc h with h | h
        · exact Or.inl h
        · exact Or.inr (by simp [h])
      · exact Or.inr (List.mem_cons_of_mem kv h)
  rcases main l [] h with h | h
  · simp at h
  · exact h

theorem sqDist_nonneg (q v : List ℚ) : 0 ≤ sqDist q v := by
  apply List.sum_nonneg
  intro x hx
  rcases List.mem_map.1 hx with ⟨p, _, rfl⟩
  exact sq_nonneg _

theorem scored_map_fst (db : List (List ℚ)) (q : List ℚ) :
    ((db.enum.map (fun p => ((p.1 : ℤ), sqDist q p.2))).map Prod.fst) =
      (List.range db.length).map (fun n : ℕ => (n : ℤ)) := by
  rw [List.map_map]
  have h : (Prod.fst ∘ fun p : ℕ × List ℚ => ((p.1 : ℤ), sqDist q p.2)) =
      ((fun n : ℕ => (n : ℤ)) ∘ Prod.fst) := rfl
  rw [h, ← List.map_map, List.enum_map_fst]

/-- C2 counterexample: a dense index over a single vector queried with
`top_k = 2` yields two dict entries, the second labelled by the FAISS
sentinel `-1` — not `min(K, M) = 1` entries with ordinals in `[0, M)`. -/
theorem dense_search_bound_counterexample :
    ¬ ((dense_search [[(0 : ℚ)]] [(0 : ℚ)] 2).length = min 2 1 ∧
        ∀ p ∈ dense_search [[(0 : ℚ)]] [(0 : ℚ)] 2, 0 ≤ p.1 ∧ p.1 < 1) := by
  decide

/-- C2 (amended): when `K ≤ M` (the index holds at least `top_k` vectors),
`_dense_search` over `M` vectors returns exactly `K` entries, each keyed by a
distinct real chunk ordinal in `[0, M)` and valued by the similarity
`1 / (1 + d)` of its squared distance, in non-increasing similarity order —
i.e. non-decreasing distance order. (For `K > M` see the counterexample: the
FAISS padding label `-1` enters the dict.) -/
theorem dense_search_bound (db : List (List ℚ)) (q : List ℚ) (K : ℕ)
    (hK : K ≤ db.length) :
    (dense_search db q K).length = K ∧
    (∀ p ∈ dense_search db q K, 0 ≤ p.1 ∧ p.1 < (db.length : ℤ)) ∧
    ((dense_search db q K).map Prod.fst).Nodup ∧
    (dense_search db q K).Pairwise (fun a b => b.2 ≤ a.2) := by
  have hpad : K - db.length = 0 := by omega
  have hfaiss : faissSearch db q K =
      (List.insertionSort (fun a b : ℤ × ℚ => a.2 ≤ b.2)
        (db.enum.map (fun p => ((p.1 : ℤ), sqDist q p.2)))).take K := by
    rw [faissSearch, hpad]
    simp
  have hperm : List.Perm
      (List.insertionSort (fun a b : ℤ × ℚ => a.2 ≤ b.2)
        (db.enum.map (fun p => ((p.1 : ℤ), sqDist q p.2))))
      (db.enum.map (fun p => ((p.1 : ℤ), sqDist q p.2))) :=
    List.perm_insertionSort _ _
  have hnodup_scored :
      (((db.enum.map (fun p => ((p.1 : ℤ), sqDist q p.2))).map Prod.fst)).Nodup := by
    rw [scored_map_fst]
    exact (List.nodup_range _).map (fun a b h => by exact_mod_cast h)
  have hnodup_sorted :
      ((List.insertionSort (fun a b : ℤ × ℚ => a.2 ≤ b.2)
        (db.enum.map (fun p => ((p.1 : ℤ), sqDist q p.2)))).map Prod.fst).Nodup :=
    (List.Perm.nodup_iff (hperm.map Prod.fst)).2 hnodup_scored
  have hnodup_take :
      (((List.insertionSort (fun a b : ℤ × ℚ => a.2 ≤ b.2)
        (db.enum.map (fun p => ((p.1 : ℤ), sqDist q p.2)))).take K).map
          Prod.fst).Nodup :=
    ((List.take_sublist K _).map Prod.fst).nodup hnodup_sorted
  have hkeys_mapped : ∀ (l : List (ℤ × ℚ)),
      ((l.map (fun p => (p.1, 1 / (1 + p.2)))).map Prod.fst) = l.map Prod.fst := by
    intro l
    rw [List.map_map]
    rfl
  have hdense : dense_search db q K =
      ((List.insertionSort (fun a b : ℤ × ℚ => a.2 ≤ b.2)
        (db.enum.map (fun p => ((p.1 : ℤ), sqDist q p.2)))).take K).map
          (fun p => (p.1, 1 / (1 + p.2))) := by
    rw [dense_search, hfaiss]
    exact dictOfList_eq_self _ (by rw [hkeys_mapped]; exact hnodup_take)
  have hmem_scored : ∀ p ∈ db.enum.map (fun p => ((p.1 : ℤ), sqDist q p.2)),
      (0 ≤ p.1 ∧ p.1 < (db.length : ℤ)) ∧ 0 ≤ p.2 := by
    intro p hp
    rcases List.mem_map.1 hp with ⟨r, hr, rfl⟩
    refine ⟨⟨Int.ofNat_nonneg _, ?_⟩, sqDist_nonneg _ _⟩
    have hlt : r.1 < db.length := by
      have h1 : r.1 ∈ (db.enum.map Prod.fst) := List.mem_map_of_mem Prod.fst hr
      rw [List.enum_map_fst] at h1
      exact List.mem_range.1 h1
    show (r.1 : ℤ) < (db.length : ℤ)
    exact_mod_cast hlt
  refine ⟨?_, ?_, ?_, ?_⟩
  · rw [hdense]
    simp only [List.length_map, List.length_take, List.length_insertionSort,
      List.enum_length]
    omega
  · intro p hp
    rw [hdense] at hp
    rcases List.mem_map.1 hp with ⟨r, hr, rfl⟩
    have hr2 : r ∈ db.enum.map (fun p => ((p.1 : ℤ), sqDist q p.2)) :=
      hperm.mem_iff.1 (List.mem_of_mem_take hr)
    exact (hmem_scored r hr2).1
  · rw [hdense, hkeys_mapped]
    exact hnodup_take
  · rw [hdense]
    rw [List.pairwise_map]
    have hsorted : (List.insertionSort (fun a b : ℤ × ℚ => a.2 ≤ b.2)
        (db.enum.map (fun p => ((p.1 : ℤ), sqDist q p.2)))).Pairwise
          (fun a b : ℤ × ℚ => a.2 ≤ b.2) := by
      letI : IsTotal (ℤ × ℚ) (fun a b : ℤ × ℚ => a.2 ≤ b.2) :=
        ⟨fun a b => le_total a.2 b.2⟩
      letI : IsTrans (ℤ × ℚ) (fun a b : ℤ × ℚ => a.2 ≤ b.2) :=
        ⟨fun a b c hab hbc => le_trans hab hbc⟩
      exact List.sorted_insertionSort _ _
    have htakeP : ((List.insertionSort (fun a b : ℤ × ℚ => a.2 ≤ b.2)
        (db.enum.map (fun p => ((p.1 : ℤ), sqDist q p.2)))).take K).Pairwise
          (fun a b : ℤ × ℚ => a.2 ≤ b.2) :=
      List.Pairwise.sublist (List.take_sublist K _) hsorted
    refine htakeP.imp_of_mem ?_
    intro a b ha hb hab
    have ha2 : 0 ≤ a.2 := by
      have := hperm.mem_iff.1 (List.mem_of_mem_take ha)
      exact (hmem_scored a this).2
    apply one_div_le_one_div_of_le
    · linarith
    · linarith

theorem sparseFromScores_mem (scores : List ℚ) (k : ℕ) (p : ℤ × ℚ)
    (hp : p ∈ sparseFromScores scores k) :
    0 < p.2 ∧ 0 ≤ p.1 ∧ p.1 < (scores.length : ℤ) := by
  have h1 := mem_of_mem_dictOfList _ _ hp
  rcases List.mem_filterMap.1 h1 with ⟨i, hi, heq⟩
  split_ifs at heq with h hpos
  · cases heq
    refine ⟨hpos, Int.ofNat_nonneg _, ?_⟩
    show (i : ℤ) < (scores.length : ℤ)
    exact_mod_cast h

theorem bm25ScoreDoc_eq_zero (idf : String → ℚ) (avgdl : ℚ)
    (query doc : List String) (h : ∀ t ∈ query, doc.count t = 0) :
    bm25ScoreDoc idf avgdl query doc = 0 := by
  have main : ∀ (q : List String) (acc : ℚ), (∀ t ∈ q, doc.count t = 0) →
      q.foldl
        (fun acc t =>
          acc + idf t * ((doc.count t : ℚ) * (bm25_k1 + 1) /
            ((doc.count t : ℚ) +
              bm25_k1 * (1 - bm25_b + bm25_b * (doc.length : ℚ) / avgdl))))
        acc = acc := by
    intro q
    induction q with
    | nil => intro acc _; rfl
    | cons t ts ih =>
      intro acc hq
      rw [List.foldl_cons]
      have hct : doc.count t = 0 := hq t (List.mem_cons_self t ts)
      rw [show ((doc.count t : ℚ) * (bm25_k1 + 1) /
          ((doc.count t : ℚ) +
            bm25_k1 * (1 - bm25_b + bm25_b * (doc.length : ℚ) / avgdl))) =
          0 from by rw [hct]; simp]
      rw [mul_zero, add_zero]
      exact ih acc (fun t' ht' => hq t' (List.mem_cons_of_mem t ht'))
  exact main query 0 h

/-- C5 (confirmed): `_sparse_search` only ever returns entries with strictly
positive BM25 score (the comprehension filters `scores[i] > 0`); moreover a
query with empty tokenization, or sharing no term with any chunk, yields an
empty sparse result — for every idf table. -/
theorem sparse_search_positive (idf : String → ℚ) (corpus : List (List String))
    (query : String) (k : ℕ) :
    (∀ p ∈ sparse_search idf corpus query k, 0 < p.2) ∧
    ((pyTokenize query = [] ∨
        ∀ t ∈ pyTokenize query, ∀ doc ∈ corpus, t ∉ doc) →
      sparse_search idf corpus query k = []) := by
  constructor
  · intro p hp
    exact (sparseFromScores_mem _ _ p hp).1
  · intro hcase
    have hzero : ∀ i (h : i < (bm25GetScores idf corpus (pyTokenize query)).length),
        (bm25GetScores idf corpus (pyTokenize query)).get ⟨i, h⟩ = 0 := by
      intro i h
      simp only [bm25GetScores] at h ⊢
      rw [List.get_eq_getElem, List.getElem_map]
      apply bm25ScoreDoc_eq_zero
      intro t ht
      rcases hcase with hcase | hcase
      · rw [hcase] at ht
        cases ht
      · refine List.count_eq_zero.2 (hcase t ht _ ?_)
        exact List.getElem_mem _
    rw [sparse_search, sparseFromScores]
    have hnil : (((pySliceLast
        (argsortAsc (bm25GetScores idf corpus (pyTokenize query))) k).reverse).filterMap
          (fun i =>
            if h : i < (bm25GetScores idf corpus (pyTokenize query)).length then
              (if 0 < (bm25GetScores idf corpus (pyTokenize query)).get ⟨i, h⟩ then
                some ((i : ℤ),
                  (bm25GetScores idf corpus (pyTokenize query)).get ⟨i, h⟩)
               else none)
            else none)) = [] := by
      rw [List.filterMap_eq_nil_iff]
      intro i _
      by_cases h : i < (bm25GetScores idf corpus (pyTokenize query)).length
      · rw [dif_pos h, if_neg]
        rw [hzero i h]
        exact lt_irrefl 0
      · rw [dif_neg h]
    rw [hnil]
    rfl

/-- Witness for `sparse_search_positive`: one chunk `"hello"`, query `"xyz"`
sharing no term with it, constant idf table. -/
theorem sparse_search_positive_witness :
    (∀ p ∈ sparse_search (fun _ => 1) [["hello"]] "xyz" 3, 0 < p.2) ∧
    ((pyTokenize "xyz" = [] ∨
        ∀ t ∈ pyTokenize "xyz", ∀ doc ∈ [["hello"]], t ∉ doc) →
      sparse_search (fun _ => 1) [["hello"]] "xyz" 3 = []) :=
  sparse_search_positive (fun _ => 1) [["hello"]] "xyz" 3

theorem getEntry_ok (chunks : List String) (d s : List (ℤ × ℚ)) (i : ℤ)
    (h1 : -(chunks.length : ℤ) ≤ i) (h2 : i < (chunks.length : ℤ)) :
    getEntry chunks d s i = Except.ok (entryVal chunks d s i) := by
  rw [getEntry, pyGetItem]
  by_cases h0 : 0 ≤ i
  · rw [dif_pos ⟨h0, h2⟩]
    rw [entryVal, if_pos h0]
    have hget : chunks.get ⟨i.toNat, by omega⟩ = chunks.getD i.toNat "" := by
      rw [List.get_eq_getElem, List.getD_eq_getElem?_getD,
        List.getElem?_eq_getElem (by omega)]
      rfl
    rw [Except.map, hget]
  · rw [dif_neg (by omega), dif_pos ⟨h1, by omega⟩]
    rw [entryVal, if_neg h0]
    have hget : chunks.get ⟨(i + chunks.length).toNat, by omega⟩ =
        chunks.getD (i + chunks.length).toNat "" := by
      rw [List.get_eq_getElem, List.getD_eq_getElem?_getD,
        List.getElem?_eq_getElem (by omega)]
      rfl
    rw [Except.map, hget]

theorem combineEntries_ok (chunks : List String) (d s : List (ℤ × ℚ))
    (order : List ℤ)
    (hvalid : ∀ i ∈ order, -(chunks.length : ℤ) ≤ i ∧ i < (chunks.length : ℤ)) :
    combineEntries chunks d s order =
      Except.ok (order.map (entryVal chunks d s)) := by
  induction order with
  | nil => rfl
  | cons i rest ih =>
    have hi := hvalid i (List.mem_cons_self i rest)
    rw [combineEntries, getEntry_ok chunks d s i hi.1 hi.2,
      ih (fun j hj => hvalid j (List.mem_cons_of_mem i hj))]
    rfl

/-- C4 (confirmed): `_combine_results` run over an enumeration `order` of the
ordinal set union (any iteration order of the Python set) with all ordinals
valid succeeds and returns: at most `top_k` entries — exactly
`min top_k |union|` — each of the form
`(chunks[i], dense.get(i, 0) + sparse.get(i, 0))` for an ordinal `i` of the
union, sorted by fused score descending; when the union fits in `top_k`,
every union ordinal contributes its entry. -/
theorem combine_results_spec (chunks : List String)
    (dense sparse : List (ℤ × ℚ)) (k : ℕ) (order : List ℤ)
    (_horder : List.Perm order (setUnion dense sparse))
    (hvalid : ∀ i ∈ order, 0 ≤ i ∧ i < (chunks.length : ℤ)) :
    ∃ res, combine_results chunks dense sparse k order = Except.ok res ∧
      res.length = min k order.length ∧
      (∀ p ∈ res, ∃ i ∈ order, p = entryVal chunks dense sparse i) ∧
      res.Pairwise (fun a b : String × ℚ => b.2 ≤ a.2) ∧
      (order.length ≤ k → ∀ i ∈ order,
        entryVal chunks dense sparse i ∈ res) := by
  have hv' : ∀ i ∈ order, -(chunks.length : ℤ) ≤ i ∧ i < (chunks.length : ℤ) :=
    fun i hi => ⟨by have := (hvalid i hi).1; omega, (hvalid i hi).2⟩
  have hok := combineEntries_ok chunks dense sparse order hv'
  refine ⟨_, by rw [combine_results, hok]; rfl, ?_, ?_, ?_, ?_⟩
  · simp [List.length_take, List.length_insertionSort]
  · intro p hp
    have hp1 := List.mem_of_mem_take hp
    have hp2 := (List.mem_insertionSort _).1 hp1
    rcases List.mem_map.1 hp2 with ⟨i, hi, rfl⟩
    exact ⟨i, hi, rfl⟩
  · letI : IsTotal (String × ℚ) (fun a b : String × ℚ => b.2 ≤ a.2) :=
      ⟨fun a b => le_total b.2 a.2⟩
    letI : IsTrans (String × ℚ) (fun a b : String × ℚ => b.2 ≤ a.2) :=
      ⟨fun a b c hab hbc => le_trans hbc hab⟩
    exact List.Pairwise.sublist (List.take_sublist k _)
      (List.sorted_insertionSort _ _)
  · intro hk i hi
    show entryVal chunks dense sparse i ∈
      List.take k (List.insertionSort (fun a b : String × ℚ => b.2 ≤ a.2)
        (List.map (entryVal chunks dense sparse) order))
    rw [List.take_of_length_le
      (by simpa [List.length_insertionSort] using hk)]
    exact (List.mem_insertionSort _).2 (List.mem_map_of_mem _ hi)

/-- Witness for `combine_results_spec`: dense `{0: 1/2}`, sparse `{1: 2}`,
`top_k = 3`, canonical union order `[0, 1]`. -/
theorem combine_results_spec_witness :
    ∃ res, combine_results ["a", "b"] [((0 : ℤ), (1 / 2 : ℚ))]
        [((1 : ℤ), (2 : ℚ))] 3 [0, 1] = Except.ok res ∧
      res.length = min 3 ([(0 : ℤ), 1].length) ∧
      (∀ p ∈ res, ∃ i ∈ [(0 : ℤ), 1],
        p = entryVal ["a", "b"] [((0 : ℤ), (1 / 2 : ℚ))] [((1 : ℤ), (2 : ℚ))] i) ∧
      res.Pairwise (fun a b : String × ℚ => b.2 ≤ a.2) ∧
      (([(0 : ℤ), 1].length ≤ 3) → ∀ i ∈ [(0 : ℤ), 1],
        entryVal ["a", "b"] [((0 : ℤ), (1 / 2 : ℚ))] [((1 : ℤ), (2 : ℚ))] i ∈ res) :=
  combine_results_spec ["a", "b"] [((0 : ℤ), (1 / 2 : ℚ))] [((1 : ℤ), (2 : ℚ))]
    3 [0, 1] (by decide) (by decide)

unseal Rat.add Rat.mul Rat.inv Rat.sub in
/-- C7 counterexample: CPython iterates the set `{1, 16}` as `[16, 1]`
(16 hashes to slot 0 of the 8-slot table, 1 to slot 1), so with equal fused
scores on ordinals 1 and 16 the chunk of ordinal 16 comes FIRST: the stable
sort keeps set-iteration order on ties, not ascending ordinal order. -/
theorem combine_results_tie_counterexample :
    (combine_results (["x", "c1"] ++ List.replicate 14 "x" ++ ["c16"])
        [((1 : ℤ), (1 : ℚ)), ((16 : ℤ), (1 : ℚ))] [] 2 [16, 1]).toOption =
      some [("c16", 1), ("c1", 1)] ∧
    (combine_results (["x", "c1"] ++ List.replicate 14 "x" ++ ["c16"])
        [((1 : ℤ), (1 : ℚ)), ((16 : ℤ), (1 : ℚ))] [] 2 [16, 1]).toOption ≠
      some [("c1", 1), ("c16", 1)] := by
  decide

/-- C7 (amended): on equal fused scores the output keeps the iteration order
of the Python ordinal set (the sort is stable): if `i` precedes `j` in that
order and their fused scores are equal, the entry of `i` precedes the entry
of `j` in the sorted fused list. The set's iteration order is
implementation-defined and is NOT ascending-ordinal in general. -/
theorem combine_results_tie_stability (chunks : List String)
    (d s : List (ℤ × ℚ)) (order : List ℤ) (i j : ℤ)
    (hsub : List.Sublist [i, j] order)
    (hvalid : ∀ x ∈ order, -(chunks.length : ℤ) ≤ x ∧ x < (chunks.length : ℤ))
    (hscore : dictGet d i + dictGet s i = dictGet d j + dictGet s j) :
    combineEntries chunks d s order =
      Except.ok (order.map (entryVal chunks d s)) ∧
    List.Sublist [entryVal chunks d s i, entryVal chunks d s j]
      (List.insertionSort (fun a b : String × ℚ => b.2 ≤ a.2)
        (order.map (entryVal chunks d s))) := by
  refine ⟨combineEntries_ok chunks d s order hvalid, ?_⟩
  apply List.pair_sublist_insertionSort
  · show (entryVal chunks d s j).2 ≤ (entryVal chunks d s i).2
    have hi2 : (entryVal chunks d s i).2 = dictGet d i + dictGet s i := rfl
    have hj2 : (entryVal chunks d s j).2 = dictGet d j + dictGet s j := rfl
    rw [hi2, hj2, hscore]
  · have hmap := hsub.map (entryVal chunks d s)
    simpa using hmap

unseal Rat.add Rat.mul Rat.inv Rat.sub in
/-- Witness for `combine_results_tie_stability` at
`chunks = ["a","b"], order = [1, 0]`, equal scores `2`. -/
theorem combine_results_tie_stability_witness :
    combineEntries ["a", "b"] [((1 : ℤ), (2 : ℚ)), ((0 : ℤ), (2 : ℚ))] [] [1, 0] =
      Except.ok ([(1 : ℤ), 0].map
        (entryVal ["a", "b"] [((1 : ℤ), (2 : ℚ)), ((0 : ℤ), (2 : ℚ))] [])) ∧
    List.Sublist
      [entryVal ["a", "b"] [((1 : ℤ), (2 : ℚ)), ((0 : ℤ), (2 : ℚ))] [] 1,
        entryVal ["a", "b"] [((1 : ℤ), (2 : ℚ)), ((0 : ℤ), (2 : ℚ))] [] 0]
      (List.insertionSort (fun a b : String × ℚ => b.2 ≤ a.2)
        ([(1 : ℤ), 0].map
          (entryVal ["a", "b"] [((1 : ℤ), (2 : ℚ)), ((0 : ℤ), (2 : ℚ))] []))) :=
  combine_results_tie_stability ["a", "b"]
    [((1 : ℤ), (2 : ℚ)), ((0 : ℤ), (2 : ℚ))] [] [1, 0] 1 0
    (List.Sublist.refl _) (by decide) (by decide)

theorem dictGet_append_single (l : List (ℤ × ℚ)) (kv : ℤ × ℚ)
    (h : ∀ p ∈ l, p.1 ≠ kv.1) : dictGet (l ++ [kv]) kv.1 = kv.2 := by
  rw [dictGet, List.find?_append]
  rw [List.find?_eq_none.2 (fun p hp => by simp [h p hp])]
  simp

theorem dictGet_of_keys_ne (d : List (ℤ × ℚ)) (i : ℤ)
    (h : ∀ p ∈ d, p.1 ≠ i) : dictGet d i = 0 := by
  rw [dictGet, List.find?_eq_none.2 (fun p hp => by simp [h p hp])]

theorem dictOfList_append_replicate (l : List (ℤ × ℚ)) (kv : ℤ × ℚ) (n : ℕ)
    (hn : 1 ≤ n) (hnodup : (l.map Prod.fst).Nodup)
    (hkv : kv.1 ∉ l.map Prod.fst) :
    dictOfList (l ++ List.replicate n kv) = l ++ [kv] := by
  rw [dictOfList, List.foldl_append]
  rw [show List.foldl dictInsert [] l = l from dictOfList_eq_self l hnodup]
  obtain ⟨m, rfl⟩ : ∃ m, n = m + 1 := ⟨n - 1, by omega⟩
  rw [List.replicate_succ, List.foldl_cons,
    show dictInsert l kv = l ++ [kv] from by rw [dictInsert, if_neg hkv]]
  clear hn
  induction m with
  | zero => rfl
  | succ m ihm =>
    rw [List.replicate_succ, List.foldl_cons]
    have hstep : dictInsert (l ++ [kv]) kv = l ++ [kv] := by
      rw [dictInsert, if_pos (by simp)]
      rw [List.map_append]
      have hl : l.map (fun p => if p.1 = kv.1 then kv else p) = l := by
        have hcongr : ∀ p ∈ l, (if p.1 = kv.1 then kv else p) = p := by
          intro p hp
          rw [if_neg]
          intro he
          exact hkv (he ▸ List.mem_map_of_mem Prod.fst hp)
        calc l.map (fun p => if p.1 = kv.1 then kv else p) = l.map id :=
              List.map_congr_left hcongr
          _ = l := List.map_id l
      rw [hl]
      simp
    rw [hstep]
    exact ihm

theorem mem_scored_bounds (db : List (List ℚ)) (q : List ℚ) (p : ℤ × ℚ)
    (hp : p ∈ db.enum.map (fun r => ((r.1 : ℤ), sqDist q r.2))) :
    0 ≤ p.1 ∧ p.1 < (db.length : ℤ) := by
  rcases List.mem_map.1 hp with ⟨r, hr, rfl⟩
  refine ⟨Int.ofNat_nonneg _, ?_⟩
  have hlt : r.1 < db.length := by
    have h1 : r.1 ∈ (db.enum.map Prod.fst) := List.mem_map_of_mem Prod.fst hr
    rw [List.enum_map_fst] at h1
    exact List.mem_range.1 h1
  show (r.1 : ℤ) < (db.length : ℤ)
  exact_mod_cast hlt

theorem sortedScored_perm (db : List (List ℚ)) (q : List ℚ) :
    List.Perm
      (List.insertionSort (fun a b : ℤ × ℚ => a.2 ≤ b.2)
        (db.enum.map (fun r => ((r.1 : ℤ), sqDist q r.2))))
      (db.enum.map (fun r => ((r.1 : ℤ), sqDist q r.2))) :=
  List.perm_insertionSort _ _

theorem sortedScored_keys_nodup (db : List (List ℚ)) (q : List ℚ) :
    ((List.insertionSort (fun a b : ℤ × ℚ => a.2 ≤ b.2)
      (db.enum.map (fun r => ((r.1 : ℤ), sqDist q r.2)))).map Prod.fst).Nodup := by
  have hnodup_scored :
      ((db.enum.map (fun r => ((r.1 : ℤ), sqDist q r.2))).map Prod.fst).Nodup := by
    rw [scored_map_fst]
    exact (List.nodup_range _).map (fun a b h => by exact_mod_cast h)
  exact (List.Perm.nodup_iff ((sortedScored_perm db q).map Prod.fst)).2
    hnodup_scored

theorem dense_search_overflow (db : List (List ℚ)) (q : List ℚ) (K : ℕ)
    (hK : db.length < K) :
    dense_search db q K =
      (List.insertionSort (fun a b : ℤ × ℚ => a.2 ≤ b.2)
        (db.enum.map (fun r => ((r.1 : ℤ), sqDist q r.2)))).map
          (fun p => (p.1, 1 / (1 + p.2))) ++ [((-1 : ℤ), 1 / (1 + fltMax))] := by
  rw [dense_search, faissSearch]
  rw [List.take_of_length_le
    (by simp only [List.length_insertionSort, List.length_map,
      List.enum_length]; omega)]
  rw [List.map_append, List.map_replicate]
  have hkeys : (((List.insertionSort (fun a b : ℤ × ℚ => a.2 ≤ b.2)
      (db.enum.map (fun r => ((r.1 : ℤ), sqDist q r.2)))).map
        (fun p => (p.1, 1 / (1 + p.2)))).map Prod.fst) =
      (List.insertionSort (fun a b : ℤ × ℚ => a.2 ≤ b.2)
        (db.enum.map (fun r => ((r.1 : ℤ), sqDist q r.2)))).map Prod.fst := by
    rw [List.map_map]
    rfl
  apply dictOfList_append_replicate
  · omega
  · rw [hkeys]
    exact sortedScored_keys_nodup db q
  · rw [hkeys]
    intro hmem
    rcases List.mem_map.1 hmem with ⟨p, hp, hfst⟩
    have hb := mem_scored_bounds db q p ((sortedScored_perm db q).mem_iff.1 hp)
    rw [show ((fun p : ℤ × ℚ => (p.1, 1 / (1 + p.2))) ((-1 : ℤ), fltMax)).1 =
      (-1 : ℤ) from rfl] at hfst
    omega

theorem combine_results_ok_mem (chunks : List String) (d s : List (ℤ × ℚ))
    (k : ℕ) (order : List ℤ)
    (hvalid : ∀ x ∈ order, -(chunks.length : ℤ) ≤ x ∧ x < (chunks.length : ℤ))
    (hlen : order.length ≤ k) (i : ℤ) (hi : i ∈ order) :
    ∃ res, combine_results chunks d s k order = Except.ok res ∧
      entryVal chunks d s i ∈ res := by
  have hok := combineEntries_ok chunks d s order hvalid
  refine ⟨_, by rw [combine_results, hok]; rfl, ?_⟩
  show entryVal chunks d s i ∈
    List.take k (List.insertionSort (fun a b : String × ℚ => b.2 ≤ a.2)
      (order.map (entryVal chunks d s)))
  rw [List.take_of_length_le
    (by simpa [List.length_insertionSort] using hlen)]
  exact (List.mem_insertionSort _).2 (List.mem_map_of_mem _ hi)

/-- C10 (confirmed): querying a retriever of `M ≥ 1` chunks with
`top_k > M` puts the FAISS sentinel ordinal `-1` into the dense dict;
`_combine_results` resolves `chunks[-1]` by Python negative indexing to the
LAST chunk, so `search` succeeds (no IndexError) and its output contains an
entry carrying the last chunk's text with score `1 / (1 + FLT_MAX)` — the
padding constant, not a quantity derived from that chunk's own distance. -/
theorem search_sentinel_resolves_last (embed : String → List ℚ)
    (idf : String → ℚ) (chunks : List String) (query : String) (K : ℕ)
    (hM : chunks ≠ []) (hK : chunks.length < K) :
    ∃ res, search embed idf chunks query K = Except.ok res ∧
      (chunks.getLast hM, 1 / (1 + fltMax)) ∈ res := by
  have hMpos : 0 < chunks.length := List.length_pos.2 hM
  have hdb : EmbeddingService.get_embeddings (fun b => b.map embed) chunks =
      chunks.map embed := getEmbeddings_pointwise embed chunks
  have hdbl : (EmbeddingService.get_embeddings
      (fun b => b.map embed) chunks).length = chunks.length := by
    rw [hdb]
    simp
  have hDeq : retrieverDense embed chunks query K =
      (List.insertionSort (fun a b : ℤ × ℚ => a.2 ≤ b.2)
        ((EmbeddingService.get_embeddings
          (fun b => b.map embed) chunks).enum.map
            (fun r => ((r.1 : ℤ), sqDist (embed query) r.2)))).map
              (fun p => (p.1, 1 / (1 + p.2))) ++
        [((-1 : ℤ), 1 / (1 + fltMax))] := by
    rw [retrieverDense]
    exact dense_search_overflow _ _ K (by rw [hdbl]; exact hK)
  have hDkeys : ∀ p ∈ retrieverDense embed chunks query K,
      (0 ≤ p.1 ∧ p.1 < (chunks.length : ℤ)) ∨ p.1 = -1 := by
    intro p hp
    rw [hDeq] at hp
    rcases List.mem_append.1 hp with hp | hp
    · rcases List.mem_map.1 hp with ⟨r, hr, rfl⟩
      have hb := mem_scored_bounds _ _ r ((sortedScored_perm _ _).mem_iff.1 hr)
      rw [hdbl] at hb
      exact Or.inl ⟨hb.1, hb.2⟩
    · have hsing := List.mem_singleton.1 hp
      rw [hsing]
      exact Or.inr rfl
  have hSkeys : ∀ p ∈ retrieverSparse idf chunks query K,
      0 ≤ p.1 ∧ p.1 < (chunks.length : ℤ) := by
    intro p hp
    rw [retrieverSparse, sparse_search] at hp
    have h := sparseFromScores_mem _ _ p hp
    refine ⟨h.2.1, ?_⟩
    have hlen : (bm25GetScores idf (chunks.map pyTokenize)
        (pyTokenize query)).length = chunks.length := by
      simp [bm25GetScores]
    rw [hlen] at h
    exact h.2.2
  have hvalid : ∀ x ∈ setUnion (retrieverDense embed chunks query K)
      (retrieverSparse idf chunks query K),
      -(chunks.length : ℤ) ≤ x ∧ x < (chunks.length : ℤ) := by
    intro x hx
    rcases List.mem_append.1 (List.mem_dedup.1 hx) with hx2 | hx2
    · rcases List.mem_map.1 hx2 with ⟨p, hp, rfl⟩
      rcases hDkeys p hp with h | h
      · exact ⟨by omega, h.2⟩
      · rw [h]
        constructor <;> omega
    · rcases List.mem_map.1 hx2 with ⟨p, hp, rfl⟩
      have h := hSkeys p hp
      exact ⟨by omega, h.2⟩
  have hsubset : setUnion (retrieverDense embed chunks query K)
      (retrieverSparse idf chunks query K) ⊆
      ((-1 : ℤ) :: (List.range chunks.length).map (fun n : ℕ => (n : ℤ))) := by
    intro x hx
    have hxcase : (0 ≤ x ∧ x < (chunks.length : ℤ)) ∨ x = -1 := by
      rcases List.mem_append.1 (List.mem_dedup.1 hx) with hx2 | hx2
      · rcases List.mem_map.1 hx2 with ⟨p, hp, rfl⟩
        exact hDkeys p hp
      · rcases List.mem_map.1 hx2 with ⟨p, hp, rfl⟩
        exact Or.inl (hSkeys p hp)
    rcases hxcase with h | h
    · refine List.mem_cons_of_mem _ (List.mem_map.2 ⟨x.toNat, ?_, ?_⟩)
      · exact List.mem_range.2 (by omega)
      · exact Int.toNat_of_nonneg h.1
    · rw [h]
      exact List.mem_cons_self _ _
  have hulen : (setUnion (retrieverDense embed chunks query K)
      (retrieverSparse idf chunks query K)).length ≤ K := by
    have hnd : (setUnion (retrieverDense embed chunks query K)
        (retrieverSparse idf chunks query K)).Nodup := by
      rw [setUnion]
      exact List.nodup_dedup _
    have h1 := (List.subperm_of_subset hnd hsubset).length_le
    simp only [List.length_cons, List.length_map, List.length_range] at h1
    omega
  have hmem1 : (-1 : ℤ) ∈ setUnion (retrieverDense embed chunks query K)
      (retrieverSparse idf chunks query K) := by
    apply List.mem_dedup.2
    apply List.mem_append_left
    rw [hDeq, List.map_append]
    apply List.mem_append_right
    simp
  obtain ⟨res, hres, hmemres⟩ := combine_results_ok_mem chunks
    (retrieverDense embed chunks query K)
    (retrieverSparse idf chunks query K) K
    (setUnion (retrieverDense embed chunks query K)
      (retrieverSparse idf chunks query K))
    hvalid hulen (-1) hmem1
  refine ⟨res, hres, ?_⟩
  have heq : entryVal chunks (retrieverDense embed chunks query K)
      (retrieverSparse idf chunks query K) (-1) =
      (chunks.getLast hM, 1 / (1 + fltMax)) := by
    rw [entryVal, if_neg (by omega)]
    have hidx : ((-1 : ℤ) + (chunks.length : ℤ)).toNat = chunks.length - 1 := by
      omega
    have hD0 : dictGet (retrieverDense embed chunks query K) (-1) =
        1 / (1 + fltMax) := by
      rw [hDeq]
      apply dictGet_append_single
      intro p hp
      rcases List.mem_map.1 hp with ⟨r, hr, rfl⟩
      have hb := mem_scored_bounds _ _ r ((sortedScored_perm _ _).mem_iff.1 hr)
      show r.1 ≠ -1
      have hb1 := hb.1
      omega
    have hS0 : dictGet (retrieverSparse idf chunks query K) (-1) = 0 := by
      apply dictGet_of_keys_ne
      intro p hp
      have h1 := (hSkeys p hp).1
      omega
    rw [hidx, hD0, hS0, add_zero]
    rw [List.getD_eq_getElem?_getD, List.getElem?_eq_getElem (by omega)]
    simp only [Option.getD_some]
    rw [List.getLast_eq_getElem]
  rw [heq] at hmemres
  exact hmemres

/-- Witness for `search_sentinel_resolves_last`: one chunk, `top_k = 2`. -/
theorem search_sentinel_resolves_last_witness :
    ∃ res, search (fun _ => [(0 : ℚ)]) (fun _ => 1) ["a"] "a" 2 =
        Except.ok res ∧
      ((["a"] : List String).getLast (by decide), 1 / (1 + fltMax)) ∈ res :=
  search_sentinel_resolves_last (fun _ => [(0 : ℚ)]) (fun _ => 1) ["a"] "a" 2
    (by decide) (by decide)

/-- Witness for `dense_search_bound`: two vectors, `top_k = 2`. -/
theorem dense_search_bound_witness :
    (dense_search [[(0 : ℚ)], [(1 : ℚ)]] [(0 : ℚ)] 2).length = 2 ∧
    (∀ p ∈ dense_search [[(0 : ℚ)], [(1 : ℚ)]] [(0 : ℚ)] 2,
      0 ≤ p.1 ∧ p.1 < (([[(0 : ℚ)], [(1 : ℚ)]].length : ℕ) : ℤ)) ∧
    ((dense_search [[(0 : ℚ)], [(1 : ℚ)]] [(0 : ℚ)] 2).map Prod.fst).Nodup ∧
    (dense_search [[(0 : ℚ)], [(1 : ℚ)]] [(0 : ℚ)] 2).Pairwise
      (fun a b => b.2 ≤ a.2) :=
  dense_search_bound [[(0 : ℚ)], [(1 : ℚ)]] [(0 : ℚ)] 2 (by decide)

end HybridRetriever

namespace Admin

/-- C9 (confirmed): `upload_pdf` rejects a filename without an allowed
extension, and a file larger than `MAX_FILE_SIZE_MB` MiB (default 2), with a
400 error BEFORE any extraction, chunking, embedding or state change: the
world (retriever slot and upload directory) is returned untouched. -/
theorem upload_rejects_before_state_change
    (extract : List ℕ → Except String String)
    (api : List String → Except String (List (List ℚ)))
    (tempStamp : String) (w : World) (filename : String) (bytes : List ℕ) :
    (¬ pyEndsWith filename ".pdf" = true →
      upload_pdf extract api tempStamp w filename bytes =
        (Except.error ⟨400, "Invalid file type"⟩, w)) ∧
    (pyEndsWith filename ".pdf" = true →
      MAX_FILE_SIZE_MB * 1024 * 1024 < bytes.length →
      upload_pdf extract api tempStamp w filename bytes =
        (Except.error ⟨400, "File size limit exceeded"⟩, w)) := by
  constructor
  · intro h
    rw [upload_pdf, if_neg h]
  · intro h hsize
    rw [upload_pdf, if_pos h, if_pos hsize]

/-- Witness for `upload_rejects_before_state_change`: `"doc.txt"` is
rejected with the world unchanged. -/
theorem upload_rejects_before_state_change_witness :
    upload_pdf (fun _ => Except.error "x") (fun _ => Except.error "x") "t.pdf"
        ⟨⟨none, none, [], none, none, none⟩, []⟩ "doc.txt" [0] =
      (Except.error ⟨400, "Invalid file type"⟩,
        ⟨⟨none, none, [], none, none, none⟩, []⟩) :=
  (upload_rejects_before_state_change (fun _ => Except.error "x")
    (fun _ => Except.error "x") "t.pdf"
    ⟨⟨none, none, [], none, none, none⟩, []⟩ "doc.txt" [0]).1 (by decide)

theorem chunksLoop_ne_nil (text : List Char) (cs ov : ℕ)
    (h : 0 < text.length) :
    PDFProcessor.chunksLoop text cs ov 0 ≠ [] := by
  rw [PDFProcessor.chunksLoop, dif_pos h]
  split_ifs <;> simp

/-- C1 evidence (code_bug): in Ready state, `upload_pdf` calls
`clear_global_state()` BEFORE building the new retriever, so when the
embedding provider fails the caller gets a 500 **and** the slot is already
empty: retriever, chunks and pdf fields are `None` and the previous backing
PDF has been deleted from disk — the previous state is NOT preserved. -/
theorem upload_failed_build_clears_state
    (extract : List ℕ → Except String String)
    (api : List String → Except String (List (List ℚ)))
    (tempStamp : String) (st : RagState) (files : List String)
    (filename : String) (bytes : List ℕ) (text : String) (e : String)
    (R : Retriever) (p : String)
    (hext : pyEndsWith filename ".pdf" = true)
    (hsize : bytes.length ≤ MAX_FILE_SIZE_MB * 1024 * 1024)
    (hextract : extract bytes = Except.ok text)
    (hlen : 100 ≤ (pyStrip text).length)
    (hready : st.retriever = some R)
    (hfail : ∀ batch, api batch = Except.error e)
    (hfresh : filename ∉ files)
    (hp : st.pdf_path = some p) (hpne : p ≠ "") (hpmem : p ∈ files)
    (hnodup : files.Nodup) :
    upload_pdf extract api tempStamp ⟨st, files⟩ filename bytes =
      (Except.error ⟨500, e⟩,
        ⟨⟨none, none, [], none, none, none⟩,
          (files ++ [filename]).erase p⟩) ∧
    p ∉ (files ++ [filename]).erase p := by
  have htextne : text ≠ "" := by
    intro he
    rw [he] at hlen
    have hstrip : pyStrip "" = "" := rfl
    rw [hstrip] at hlen
    simp at hlen
  have hchunks : PDFProcessor.create_chunks text CHUNK_SIZE CHUNK_OVERLAP =
      Except.ok ((PDFProcessor.chunksLoop text.data CHUNK_SIZE
        CHUNK_OVERLAP 0).map (fun l => ⟨l⟩)) := by
    unfold PDFProcessor.create_chunks
    rw [if_neg htextne, if_neg (by decide)]
  have hlenpos : 0 < text.data.length := by
    cases text with
    | mk d =>
      cases d with
      | nil => exact absurd rfl htextne
      | cons a l => simp
  have hchunks_ne : ((PDFProcessor.chunksLoop text.data CHUNK_SIZE
      CHUNK_OVERLAP 0).map (fun l => (⟨l⟩ : String))) ≠ [] := by
    intro hc
    exact chunksLoop_ne_nil text.data CHUNK_SIZE CHUNK_OVERLAP hlenpos
      (List.map_eq_nil_iff.1 hc)
  have hbuild : buildRetriever api ((PDFProcessor.chunksLoop text.data
      CHUNK_SIZE CHUNK_OVERLAP 0).map (fun l => (⟨l⟩ : String))) =
      Except.error e := by
    rw [buildRetriever, EmbeddingService.get_embeddingsE,
      if_neg hchunks_ne, hfail]
    rfl
  constructor
  · rw [upload_pdf, if_pos hext, if_neg (by omega)]
    have htemp : (filename ∈ files) = False := by
      simp [hfresh]
    simp only [pdfTryBlock, htemp, if_false, hextract]
    rw [if_neg (by omega)]
    rw [hchunks]
    simp only [hready, Option.isSome_some, if_true]
    rw [hbuild]
    simp only [clear_global_state, hp]
    rw [if_pos ⟨hpne, List.mem_append_left [filename] hpmem⟩]
  · have hnodup1 : (files ++ [filename]).Nodup := by
      rw [List.nodup_append]
      refine ⟨hnodup, List.nodup_singleton filename, ?_⟩
      intro a ha ha2
      rw [List.mem_singleton.1 ha2] at ha
      exact hfresh ha
    intro hmem
    have h2 := (List.Nodup.mem_erase_iff hnodup1).1 hmem
    exact h2.1 rfl

/-- Witness for `upload_failed_build_clears_state`: a Ready state whose
upload fails at the embedding call ends Empty with the old PDF gone. -/
theorem upload_failed_build_clears_state_witness :
    upload_pdf (fun _ => Except.ok (⟨List.replicate 100 'a'⟩ : String))
        (fun _ => Except.error "ProviderUnavailable") "t.pdf"
        ⟨⟨some ⟨["c"], [[0]], [["c"]]⟩, some ["c"], [], some "old.pdf",
          some "old.pdf", some 10⟩, ["old.pdf"]⟩ "new.pdf" [0] =
      (Except.error ⟨500, "ProviderUnavailable"⟩,
        ⟨⟨none, none, [], none, none, none⟩,
          (["old.pdf"] ++ ["new.pdf"]).erase "old.pdf"⟩) ∧
    "old.pdf" ∉ (["old.pdf"] ++ ["new.pdf"]).erase "old.pdf" :=
  upload_failed_build_clears_state
    (fun _ => Except.ok (⟨List.replicate 100 'a'⟩ : String))
    (fun _ => Except.error "ProviderUnavailable") "t.pdf"
    ⟨some ⟨["c"], [[0]], [["c"]]⟩, some ["c"], [], some "old.pdf",
      some "old.pdf", some 10⟩ ["old.pdf"] "new.pdf" [0]
    (⟨List.replicate 100 'a'⟩ : String) "ProviderUnavailable"
    ⟨["c"], [[0]], [["c"]]⟩ "old.pdf"
    (by decide) (by decide) rfl (by decide) rfl (fun _ => rfl)
    (by decide) rfl (by decide) (by decide) (by decide)

end Admin

end RagCore
